import Mathlib

/-!
Verification of the MVCS version-control engine (TimothySpaceman/mvcs-npm).

The development shallowly embeds the `Project` class of `src/vcs/project.ts`
(the revision exercised by the repository's test suite, given in
`src/unnamed/part_002` lines 40-411) together with, where a claim cites it,
the refactored revision of the same file (`src/unnamed/part_002` lines
451-854).  Modelling conventions, fixed once for the whole file:

* JavaScript objects used as string-keyed dictionaries are association lists
  (`JsObj`) with JavaScript insertion-order semantics: assigning to an
  existing key keeps its position, assigning to a fresh key appends, `delete`
  removes the entry.  (Integer-like key reordering is out of scope; all keys
  in this system are UUID-like or user-chosen branch names.)
* JavaScript truthiness on optional strings is modelled faithfully:
  `undefined` and the empty string are falsy (`truthy`).
* The unchecked TypeScript cast `this.currentCommitId as string` inside
  `createBranch` can store `undefined` as a branch value at run time, so
  branch values are modelled as `Option String`.
* The storage provider is external to the core (spec section 4.A).  It is
  modelled as a working tree (relative path to file contents), a set of
  directory paths, and the blob pool `<workdir>/.mvcs/contents/` keyed by
  blob id.  `path.join(workingDir, ".mvcs", "contents", id)` is modelled as
  an access of the pool at `id`.  The streaming hash `getDataHash` is an
  external contract; it is modelled as the identity on file contents, so
  hash comparison is content comparison.
* `randomUUID` is modelled by the deterministic generator `genId` threaded
  through the operations as a counter, exactly like the repository's own
  Jest fixture (`randomUUID: jest.fn(() => "uuid-" + counter++)`).
* The unbounded `while` loop of the ancestor walk is given an explicit step
  budget (`fuel`); the value `none` means the loop has not finished within
  that many iterations.  All other potentially throwing code returns
  `Except VcsErr`.
-/

deriving instance DecidableEq for Except

/-- Association list with JavaScript object insertion-order semantics. -/
abbrev JsObj (α : Type) := List (String × α)

/-- Lookup of `o[k]` (absent keys give `none`, JS `undefined`). -/
def jGet {α : Type} (o : JsObj α) (k : String) : Option α :=
  (o.find? (fun kv => kv.1 = k)).map (fun kv => kv.2)

/-- Assignment `o[k] = v`: replaces in place if `k` is present, else appends.
(Keys of a JavaScript object are unique, so replacing the first occurrence
is replacing the occurrence.) -/
def jSet {α : Type} : JsObj α → String → α → JsObj α
  | [], k, v => [(k, v)]
  | kv :: rest, k, v =>
    if kv.1 = k then (k, v) :: rest else kv :: jSet rest k v

/-- Deletion `delete o[k]` (keys are unique, so removing every occurrence
is removing the occurrence). -/
def jDel {α : Type} : JsObj α → String → JsObj α
  | [], _ => []
  | kv :: rest, k => if kv.1 = k then jDel rest k else kv :: jDel rest k

/-- Key list, `Object.keys(o)`, in insertion order. -/
def jKeys {α : Type} (o : JsObj α) : List String :=
  o.map (fun kv => kv.1)

/-- Value list, `Object.values(o)`, in insertion order. -/
def jValues {α : Type} (o : JsObj α) : List α :=
  o.map (fun kv => kv.2)

/-- JavaScript truthiness of a possibly-undefined string:
`undefined` and `""` are falsy. -/
def truthy : Option String → Bool
  | none => false
  | some s => !(s == "")

/-- The id generator, modelling `randomUUID` as the repository's Jest test
double does: the n-th fresh id is `uuid-<n>`. -/
def genId (n : Nat) : String := "uuid-" ++ toString n

/-- The error kinds raised by the core, one constructor per `throw` site of
`src/unnamed/part_002` lines 40-411 (plus the storage provider's read
failure).  Keeping them as constructors makes distinctness of the failure
modes structural. -/
inductive VcsErr : Type
  | tooShortId : VcsErr
  | noCandidate (idPart : String) : VcsErr
  | multipleCandidates (idPart : String) : VcsErr
  | commitNotFound (id : String) : VcsErr
  | parentNotFound (id : String) : VcsErr
  | itemNotFound (id : String) : VcsErr
  | noCurrentCommit : VcsErr
  | currentCommitNotFound : VcsErr
  | notAtBranch : VcsErr
  | branchNotFound (name : String) : VcsErr
  | branchExists (name : String) : VcsErr
  | branchCommitNotFound (cid name : String) : VcsErr
  | onlyBranch : VcsErr
  | deleteCurrentBranch : VcsErr
  | deleteDefaultBranch : VcsErr
  | fileNotFound (path : String) : VcsErr
deriving DecidableEq, Repr

/-- The message carried by each error, matching the strings thrown by the
source. -/
def VcsErr.message : VcsErr → String
  | .tooShortId => "You must specify at least 6 symbols of ID"
  | .noCandidate p => "No ID candidate for " ++ p ++ " found"
  | .multipleCandidates p => "Multiple ID candidates were found for " ++ p
  | .commitNotFound id => "Commit " ++ id ++ " not found in the Commit List"
  | .parentNotFound id => "Parent commit " ++ id ++ " not found in the Commit List"
  | .itemNotFound id => "Item " ++ id ++ " not found in the Items List"
  | .noCurrentCommit => "No current commit"
  | .currentCommitNotFound => "Current commit not found in the Commit List"
  | .notAtBranch => "Cannot commit when not at the branch"
  | .branchNotFound n => "Branch " ++ n ++ " not found"
  | .branchExists n => "Branch " ++ n ++ " already exists"
  | .branchCommitNotFound c n => "Commit " ++ c ++ " (branch " ++ n ++ ") not found"
  | .onlyBranch => "Cannot delete the only branch in the project"
  | .deleteCurrentBranch => "Cannot delete the branch you\"re currently on"
  | .deleteDefaultBranch => "Cannot delete default branch"
  | .fileNotFound p => "Failed to read file " ++ p

/-- Item record (`src/vcs/types.ts`): a content-addressed file snapshot. -/
structure Item where
  id : String
  content : String
  path : String
deriving DecidableEq, Repr

/-- ItemChange record: `from` and `to` are optional item ids. -/
structure ItemChange where
  fromId : Option String
  toId : Option String
deriving DecidableEq, Repr

/-- Commit record. -/
structure Commit where
  id : String
  parent : Option String
  children : List String
  authorId : String
  title : String
  description : Option String
  date : String
  changes : List ItemChange
deriving DecidableEq, Repr

/-- The Project aggregate (fields of the class in `src/unnamed/part_002`
lines 40-53; the storage-provider handle is external and omitted). -/
structure Project where
  id : String
  authorId : String
  title : String
  description : Option String
  workingDir : String
  branches : JsObj (Option String)
  defaultBranch : Option String
  currentBranch : Option String
  commits : JsObj Commit
  rootCommitId : Option String
  currentCommitId : Option String
  items : JsObj Item
deriving DecidableEq, Repr

/-- External storage state: working tree (file path to contents), directory
paths, and the blob pool under `.mvcs/contents/`. -/
structure FS where
  tree : JsObj String
  dirs : List String
  pool : JsObj String
deriving DecidableEq, Repr

/-- JavaScript `id.startsWith(idPart)`, computed on the character lists
(executable model of string prefix testing). -/
def strStartsWith (s pre : String) : Bool :=
  pre.data.isPrefixOf s.data

/-- matchCommitId (src/unnamed/part_002 lines 131-143): resolve a commit-id
prefix of length at least 6 against the keys of the commits table.
`candidates.pop()` on the singleton list is the single element. -/
def matchCommitId (p : Project) (idPart : String) : Except VcsErr String :=
  if idPart.length < 6 then
    .error .tooShortId
  else
    match (jKeys p.commits).filter (fun id => strStartsWith id idPart) with
    | [] => .error (.noCandidate idPart)
    | [c] => .ok c
    | _ :: _ :: _ => .error (.multipleCandidates idPart)

theorem strStartsWith_self (s : String) : strStartsWith s s = true := by
  simp [strStartsWith, List.isPrefixOf_iff_prefix]

theorem jGet_nil {α : Type} (k : String) : jGet ([] : JsObj α) k = none := by
  simp [jGet, List.find?]

theorem jGet_cons_self {α : Type} (kv : String × α) (o : JsObj α) (k : String)
    (h : kv.1 = k) : jGet (kv :: o) k = some kv.2 := by
  simp [jGet, List.find?, h]

theorem jGet_cons_ne {α : Type} (kv : String × α) (o : JsObj α) (k : String)
    (h : ¬ kv.1 = k) : jGet (kv :: o) k = jGet o k := by
  simp [jGet, List.find?, h]

theorem jGet_jSet_self {α : Type} (o : JsObj α) (k : String) (v : α) :
    jGet (jSet o k v) k = some v := by
  induction o with
  | nil => simp [jGet, jSet, List.find?]
  | cons kv o ih =>
    by_cases hk : kv.1 = k
    · simp [jSet, hk, jGet_cons_self]
    · rw [jSet, if_neg hk, jGet_cons_ne _ _ _ hk]
      exact ih

theorem jGet_jSet_ne {α : Type} (o : JsObj α) (k k' : String) (v : α)
    (h : k' ≠ k) : jGet (jSet o k v) k' = jGet o k' := by
  induction o with
  | nil =>
    rw [jSet, jGet_cons_ne _ _ _ (fun hh => h hh.symm)]
  | cons kv o ih =>
    by_cases hk : kv.1 = k
    · rw [jSet, if_pos hk, jGet_cons_ne _ _ _ (fun hh => h hh.symm),
        jGet_cons_ne _ _ _ (fun hh => h (hk ▸ hh).symm)]
    · by_cases hk' : kv.1 = k'
      · rw [jSet, if_neg hk, jGet_cons_self _ _ _ hk', jGet_cons_self _ _ _ hk']
      · rw [jSet, if_neg hk, jGet_cons_ne _ _ _ hk', jGet_cons_ne _ _ _ hk']
        exact ih

theorem jGet_jDel_self {α : Type} (o : JsObj α) (k : String) :
    jGet (jDel o k) k = none := by
  induction o with
  | nil => simp [jGet, jDel, List.find?]
  | cons kv o ih =>
    by_cases hk : kv.1 = k
    · rw [jDel, if_pos hk]; exact ih
    · rw [jDel, if_neg hk, jGet_cons_ne _ _ _ hk]; exact ih

theorem jGet_jDel_ne {α : Type} (o : JsObj α) (k k' : String)
    (h : k' ≠ k) : jGet (jDel o k) k' = jGet o k' := by
  induction o with
  | nil => rfl
  | cons kv o ih =>
    by_cases hk : kv.1 = k
    · rw [jDel, if_pos hk, jGet_cons_ne _ _ _ (fun hh => h ((hk ▸ hh : k = k')).symm)]
      exact ih
    · by_cases hk' : kv.1 = k'
      · rw [jDel, if_neg hk, jGet_cons_self _ _ _ hk', jGet_cons_self _ _ _ hk']
      · rw [jDel, if_neg hk, jGet_cons_ne _ _ _ hk', jGet_cons_ne _ _ _ hk']
        exact ih

theorem jGet_isSome_of_mem_keys {α : Type} (o : JsObj α) (k : String)
    (h : k ∈ jKeys o) : (jGet o k).isSome := by
  induction o with
  | nil => simp [jKeys] at h
  | cons kv o ih =>
    by_cases hk : kv.1 = k
    · simp [jGet_cons_self _ _ _ hk]
    · rw [jGet_cons_ne _ _ _ hk]
      rcases (by simpa [jKeys] using h : k = kv.1 ∨ ∃ x, (k, x) ∈ o) with h' | ⟨x, hx⟩
      · exact absurd h'.symm hk
      · apply ih
        simp only [jKeys, List.mem_map]
        exact ⟨(k, x), hx, rfl⟩

theorem mem_keys_of_jGet_isSome {α : Type} (o : JsObj α) (k : String)
    (h : (jGet o k).isSome) : k ∈ jKeys o := by
  induction o with
  | nil => simp [jGet, List.find?] at h
  | cons kv o ih =>
    by_cases hk : kv.1 = k
    · simp [jKeys, hk.symm]
    · rw [jGet_cons_ne _ _ _ hk] at h
      simp only [jKeys, List.map, List.mem_cons]
      exact Or.inr (ih h)

theorem matchCommitId_ok (p : Project) (s cid : String)
    (h : matchCommitId p s = .ok cid) :
    cid ∈ jKeys p.commits ∧ strStartsWith cid s = true ∧ 6 ≤ s.length := by
  unfold matchCommitId at h
  split at h
  · cases h
  · rename_i hlen
    split at h
    · cases h
    · rename_i c hfil
      cases h
      have hmem : cid ∈ (jKeys p.commits).filter (fun id => strStartsWith id s) := by
        rw [hfil]; simp
      have := List.mem_filter.mp hmem
      exact ⟨this.1, by simpa using this.2, Nat.not_lt.mp hlen⟩
    · cases h

/-- C4: matchCommitId fails on a prefix shorter than 6 characters; with at
least 6 characters it returns the unique id extending the prefix when there
is exactly one, fails with "No ID candidate for p found" when there is
none, and fails with "Multiple ID candidates were found for p" when there
are two or more; a full commit id with a unique extension resolves to
itself. -/
theorem C4_matchCommitId_resolution (p : Project) (s : String) :
    (s.length < 6 → matchCommitId p s = .error .tooShortId) ∧
    (6 ≤ s.length →
      ((jKeys p.commits).filter (fun id => strStartsWith id s) = [] →
        matchCommitId p s = .error (.noCandidate s) ∧
        (VcsErr.noCandidate s).message = "No ID candidate for " ++ s ++ " found") ∧
      (∀ c, (jKeys p.commits).filter (fun id => strStartsWith id s) = [c] →
        matchCommitId p s = .ok c) ∧
      (2 ≤ ((jKeys p.commits).filter (fun id => strStartsWith id s)).length →
        matchCommitId p s = .error (.multipleCandidates s) ∧
        (VcsErr.multipleCandidates s).message =
          "Multiple ID candidates were found for " ++ s) ∧
      ((jGet p.commits s).isSome →
        ((jKeys p.commits).filter (fun id => strStartsWith id s)).length = 1 →
        matchCommitId p s = .ok s)) := by
  constructor
  · intro hlt
    unfold matchCommitId
    rw [if_pos hlt]
  · intro h6
    have hnot : ¬ s.length < 6 := Nat.not_lt.mpr h6
    refine ⟨?_, ?_, ?_, ?_⟩
    · intro hfil
      unfold matchCommitId
      rw [if_neg hnot, hfil]
      exact ⟨rfl, rfl⟩
    · intro c hfil
      unfold matchCommitId
      rw [if_neg hnot, hfil]
    · intro h2
      unfold matchCommitId
      rw [if_neg hnot]
      rcases hfil : (jKeys p.commits).filter (fun id => strStartsWith id s) with
        _ | ⟨a, _ | ⟨b, l⟩⟩
      · rw [hfil] at h2; simp at h2
      · rw [hfil] at h2; simp at h2
      · exact ⟨rfl, rfl⟩
    · intro hsome hlen1
      have hmem : s ∈ (jKeys p.commits).filter (fun id => strStartsWith id s) :=
        List.mem_filter.mpr ⟨mem_keys_of_jGet_isSome _ _ hsome,
          by simp [strStartsWith_self]⟩
      rcases List.length_eq_one.mp hlen1 with ⟨c, hc⟩
      have : s = c := by rw [hc] at hmem; simpa using hmem
      unfold matchCommitId
      rw [if_neg hnot, hc, this]

/-- A commit used in concrete witness states. -/
def wCommitA : Commit :=
  { id := "commit-a-1", parent := none, children := [], authorId := "au",
    title := "t1", description := none, date := "2025-01-01", changes := [] }

/-- A concrete project whose commits table has the single key
"commit-a-1". -/
def wProj4 : Project :=
  { id := "pid", authorId := "au", title := "pt", description := none,
    workingDir := "wd", branches := [], defaultBranch := none,
    currentBranch := none, commits := [("commit-a-1", wCommitA)],
    rootCommitId := none, currentCommitId := none, items := [] }

theorem C4_matchCommitId_resolution_witness :
    matchCommitId wProj4 "commit-a" = .ok "commit-a-1" ∧
    matchCommitId wProj4 "commit-a-1" = .ok "commit-a-1" :=
  ⟨((C4_matchCommitId_resolution wProj4 "commit-a").2 (by decide)).2.1
      "commit-a-1" (by decide),
    ((C4_matchCommitId_resolution wProj4 "commit-a-1").2 (by decide)).2.2.2
      (by decide) (by decide)⟩

/-- getCurrentCommit (src/unnamed/part_002 lines 145-157). -/
def getCurrentCommit (p : Project) : Except VcsErr (Option Commit) :=
  if !truthy p.currentCommitId && decide (p.commits ≠ []) then
    .error .noCurrentCommit
  else if truthy p.currentCommitId &&
      !(jGet p.commits (p.currentCommitId.getD "")).isSome then
    .error .currentCommitNotFound
  else if truthy p.currentCommitId then
    .ok (jGet p.commits (p.currentCommitId.getD ""))
  else
    .ok none

/-- The while loop of getCommitItems (src/unnamed/part_002 lines 166-177,
factored as buildCommitChain at lines 606-624 of the refactored revision):
the chain state is `head :: tail` with `head` playing `commitChain[0]`.
Fuel counts loop iterations; `none` means the loop has not finished within
the given budget. -/
def buildChainFuel (p : Project) : Nat → Commit → List Commit →
    Option (Except VcsErr (List Commit))
  | 0, _, _ => none
  | n + 1, head, tail =>
    if p.rootCommitId = some head.id then some (.ok (head :: tail))
    else if truthy head.parent then
      match jGet p.commits (head.parent.getD "") with
      | none => some (.error (.parentNotFound (head.parent.getD "")))
      | some parentCommit => buildChainFuel p n parentCommit (head :: tail)
    else some (.ok (head :: tail))

/-- One iteration of the change-folding loop (src/unnamed/part_002 lines
181-192): the `to` branch runs before the `from` branch. -/
def applyChange (items : JsObj Item) (m : JsObj Item) (ch : ItemChange) :
    Except VcsErr (JsObj Item) :=
  if truthy ch.toId then
    match jGet items (ch.toId.getD "") with
    | none => .error (.itemNotFound (ch.toId.getD ""))
    | some it =>
      let m1 := jSet m (ch.toId.getD "") it
      .ok (if truthy ch.fromId then jDel m1 (ch.fromId.getD "") else m1)
  else
    .ok (if truthy ch.fromId then jDel m (ch.fromId.getD "") else m)

/-- Folding one commit's change list, in listed order (the inner `for` of
lines 180-193, factored as applyCommitChanges in the refactored revision). -/
def applyCommitChanges (items : JsObj Item) (m : JsObj Item) (c : Commit) :
    Except VcsErr (JsObj Item) :=
  c.changes.foldlM (applyChange items) m

/-- Folding the whole chain starting from the empty working set. -/
def foldChain (items : JsObj Item) (chain : List Commit) :
    Except VcsErr (JsObj Item) :=
  chain.foldlM (applyCommitChanges items) []

/-- getCommitItems (src/unnamed/part_002 lines 159-196): resolve the prefix,
find the target commit, build the ancestor chain, fold the changes. -/
def getCommitItemsFuel (p : Project) (s : String) (n : Nat) :
    Option (Except VcsErr (JsObj Item)) :=
  match matchCommitId p s with
  | .error e => some (.error e)
  | .ok cid =>
    match jGet p.commits cid with
    | none => some (.error (.commitNotFound cid))
    | some tc =>
      match buildChainFuel p n tc [] with
      | none => none
      | some (.error e) => some (.error e)
      | some (.ok chain) => some (foldChain p.items chain)

/-- Modelled from the spec (section 4.H step 3, first bullet): if `to` is
present, the referenced item must exist in `items` and is inserted into the
working set under its id.  Presence is the JavaScript presence test of the
source, so an absent or empty id means "not present". -/
def specInsertTo (items ws : JsObj Item) (t : Option String) :
    Except VcsErr (JsObj Item) :=
  match t with
  | none => .ok ws
  | some tid =>
    if tid = "" then .ok ws
    else
      match jGet items tid with
      | some it => .ok (jSet ws tid it)
      | none => .error (.itemNotFound tid)

/-- Modelled from the spec (section 4.H step 3, second bullet): if `from` is
present, remove it from the working set. -/
def specRemoveFrom (ws : JsObj Item) (f : Option String) : JsObj Item :=
  match f with
  | none => ws
  | some fid => if fid = "" then ws else jDel ws fid

/-- Modelled from the spec (section 4.H step 4): within a single change,
`to` is evaluated first, then `from`. -/
def specFoldChange (items : JsObj Item) (ws : JsObj Item) (ch : ItemChange) :
    Except VcsErr (JsObj Item) :=
  (specInsertTo items ws ch.toId).map (fun ws1 => specRemoveFrom ws1 ch.fromId)

/-- Modelled from the spec (section 4.H step 3): fold changes in chain order
(root to target), each commit's changes in listed order. -/
def specFold (items : JsObj Item) (chain : List Commit) :
    Except VcsErr (JsObj Item) :=
  chain.foldlM (fun ws c => c.changes.foldlM (specFoldChange items) ws) []

/-- The list is an ancestor chain: each element is the commit stored under
the parent pointer of the next element. -/
def chainLinked (p : Project) : List Commit → Prop
  | [] => True
  | [_] => True
  | a :: b :: t =>
    (truthy b.parent = true ∧ jGet p.commits (b.parent.getD "") = some a) ∧
      chainLinked p (b :: t)

theorem applyChange_eq_spec (items ws : JsObj Item) (ch : ItemChange) :
    applyChange items ws ch = specFoldChange items ws ch := by
  unfold applyChange specFoldChange specInsertTo specRemoveFrom
  cases ht : ch.toId with
  | none =>
    cases hf : ch.fromId with
    | none => simp [truthy, Except.map]
    | some fid => by_cases hfe : fid = "" <;> simp [truthy, hfe, Except.map]
  | some tid =>
    by_cases hte : tid = ""
    · subst hte
      cases hf : ch.fromId with
      | none => simp [truthy, Except.map]
      | some fid => by_cases hfe : fid = "" <;> simp [truthy, hfe, Except.map]
    · cases hit : jGet items tid with
      | none => simp [truthy, hte, hit, Except.map]
      | some it =>
        cases hf : ch.fromId with
        | none => simp [truthy, hte, hit, Except.map]
        | some fid =>
          by_cases hfe : fid = "" <;> simp [truthy, hte, hit, hfe, Except.map]

theorem foldChain_eq_spec (items : JsObj Item) (chain : List Commit) :
    foldChain items chain = specFold items chain := by
  unfold foldChain specFold applyCommitChanges
  have hstep : ∀ (l : List ItemChange) (ws : JsObj Item),
      l.foldlM (applyChange items) ws = l.foldlM (specFoldChange items) ws := by
    intro l
    induction l with
    | nil => intro ws; rfl
    | cons ch chs ih =>
      intro ws
      simp only [List.foldlM, applyChange_eq_spec]
      cases specFoldChange items ws ch with
      | error e => rfl
      | ok ws1 => exact ih ws1
  have hgen : ∀ (cl : List Commit) (ws : JsObj Item),
      cl.foldlM (fun ws c => c.changes.foldlM (applyChange items) ws) ws =
        cl.foldlM (fun ws c => c.changes.foldlM (specFoldChange items) ws) ws := by
    intro cl
    induction cl with
    | nil => intro ws; rfl
    | cons d ds ihd =>
      intro ws
      simp only [List.foldlM, hstep]
  exact hgen chain []

theorem chainLinked_single (p : Project) (c : Commit) : chainLinked p [c] := by
  simp [chainLinked]

theorem buildChainFuel_ok (p : Project) :
    ∀ (n : Nat) (head : Commit) (tail chain : List Commit),
      buildChainFuel p n head tail = some (.ok chain) →
      chainLinked p (head :: tail) →
      chainLinked p chain ∧
      chain.getLast? = (head :: tail).getLast? ∧
      (∀ hd, chain.head? = some hd →
        p.rootCommitId = some hd.id ∨ truthy hd.parent = false) ∧
      chain ≠ [] := by
  intro n
  induction n with
  | zero => intro head tail chain h _; cases h
  | succ n ih =>
    intro head tail chain h hlink
    rw [buildChainFuel] at h
    by_cases hroot : p.rootCommitId = some head.id
    · rw [if_pos hroot] at h
      cases h
      exact ⟨hlink, rfl, by intro hd hhd; cases hhd; exact Or.inl hroot, by simp⟩
    · rw [if_neg hroot] at h
      by_cases hpar : truthy head.parent = true
      · rw [if_pos hpar] at h
        cases hlook : jGet p.commits (head.parent.getD "") with
        | none => rw [hlook] at h; cases h
        | some parentCommit =>
          rw [hlook] at h
          have hlink' : chainLinked p (parentCommit :: head :: tail) := by
            exact ⟨⟨hpar, hlook⟩, hlink⟩
          rcases ih parentCommit (head :: tail) chain h hlink' with
            ⟨h1, h2, h3, h4⟩
          refine ⟨h1, ?_, h3, h4⟩
          rw [h2, List.getLast?_cons_cons]
      · rw [if_neg (by simpa using hpar)] at h
        cases h
        refine ⟨hlink, rfl, ?_, by simp⟩
        intro hd hhd; cases hhd
        exact Or.inr (by simpa using hpar)

/-- C1: getCommitItems, after prefix resolution, builds the ancestor chain
from the root (or a parentless commit) to the target and returns the fold,
in chain order and change-list order, of the spec-level change application
in which `to` is evaluated before `from`: a present (truthy) `to` requires
the referenced item to exist in the items table and inserts it under its
id, a present `from` removes that id, and a change with `from = to`
therefore removes the item it just inserted. -/
theorem C1_getCommitItems_fold (p : Project) (s : String) (n : Nat)
    (cid : String) (tc : Commit) (chain : List Commit)
    (hm : matchCommitId p s = .ok cid)
    (hc : jGet p.commits cid = some tc)
    (hb : buildChainFuel p n tc [] = some (.ok chain)) :
    getCommitItemsFuel p s n = some (specFold p.items chain) ∧
    chain.getLast? = some tc ∧
    chain ≠ [] ∧
    chainLinked p chain ∧
    (∀ hd, chain.head? = some hd →
      p.rootCommitId = some hd.id ∨ truthy hd.parent = false) ∧
    (∀ (ws : JsObj Item) (i : String) (it : Item), jGet p.items i = some it →
      i ≠ "" →
      applyChange p.items ws ⟨some i, some i⟩ = .ok (jDel (jSet ws i it) i) ∧
      jGet (jDel (jSet ws i it) i) i = none) := by
  rcases buildChainFuel_ok p n tc [] chain hb (chainLinked_single p tc) with
    ⟨h1, h2, h3, h4⟩
  refine ⟨?_, ?_, h4, h1, h3, ?_⟩
  · simp only [getCommitItemsFuel, hm, hc, hb, foldChain_eq_spec]
  · simpa using h2
  · intro ws i it hit hne
    constructor
    · unfold applyChange
      simp only [truthy, show ((some i : Option String)) = some i from rfl]
      rw [if_pos (by simpa using hne)]
      simp only [Option.getD]
      rw [hit]
      simp [hne]
    · exact jGet_jDel_self _ _

/-- A second commit extending wCommitA, used in witnesses. -/
def wCommitB : Commit :=
  { id := "commit-b-2", parent := some "commit-a-1", children := [],
    authorId := "au", title := "t2", description := none,
    date := "2025-01-02",
    changes := [⟨none, some "item-1"⟩] }

/-- An item referenced by wCommitB. -/
def wItem1 : Item :=
  { id := "item-1", content := "blob-1", path := "f1.txt" }

/-- A two-commit project for witnesses of the history resolver. -/
def wProj1 : Project :=
  { id := "pid", authorId := "au", title := "pt", description := none,
    workingDir := "wd",
    branches := [("main", some "commit-b-2")], defaultBranch := some "main",
    currentBranch := some "main",
    commits := [("commit-a-1", wCommitA), ("commit-b-2", wCommitB)],
    rootCommitId := some "commit-a-1",
    currentCommitId := some "commit-b-2",
    items := [("item-1", wItem1)] }

theorem C1_getCommitItems_fold_witness :
    getCommitItemsFuel wProj1 "commit-b" 2 =
      some (specFold wProj1.items [wCommitA, wCommitB]) ∧
    getCommitItemsFuel wProj1 "commit-b" 2 =
      some (.ok [("item-1", wItem1)]) :=
  ⟨(C1_getCommitItems_fold wProj1 "commit-b" 2 "commit-b-2" wCommitB
      [wCommitA, wCommitB] (by decide) (by decide) (by decide)).1,
    by decide⟩

/-- A commit whose parent pointer is part of a two-cycle. -/
def cycCommit1 : Commit :=
  { id := "commit-cyc-1", parent := some "commit-cyc-2", children := [],
    authorId := "au", title := "c1", description := none, date := "d",
    changes := [] }

/-- The other half of the parent cycle. -/
def cycCommit2 : Commit :=
  { id := "commit-cyc-2", parent := some "commit-cyc-1", children := [],
    authorId := "au", title := "c2", description := none, date := "d",
    changes := [] }

/-- A corrupt stored project whose two commits form a parent cycle that
does not pass through the (absent) root. -/
def cycProj : Project :=
  { id := "pid", authorId := "au", title := "pt", description := none,
    workingDir := "wd", branches := [], defaultBranch := none,
    currentBranch := none,
    commits := [("commit-cyc-1", cycCommit1), ("commit-cyc-2", cycCommit2)],
    rootCommitId := none, currentCommitId := none, items := [] }

/-- C10 counterexample: on the cyclic two-commit graph the ancestor walk is
still running after commits-count-plus-one loop iterations; no bound is
applied and no overshoot failure is raised, contradicting the claim that
the walk is bounded by the total commit count and fails on overshoot. -/
theorem C10_bounded_walk_counterexample :
    getCommitItemsFuel cycProj "commit-cyc-1" (cycProj.commits.length + 1) =
      none ∧
    cycProj.commits.length = 2 := by
  constructor
  · rfl
  · rfl

/-- C10 amended: the ancestor walk of getCommitItems is not bounded; it
terminates exactly when following parent pointers reaches the root or a
parentless commit, and on the cyclic graph cycProj it never finishes: for
every iteration budget n the walk is still running (`none`), so
getCommitItems diverges on this corrupt stored graph. -/
theorem C10_unbounded_walk_diverges (n : Nat) :
    getCommitItemsFuel cycProj "commit-cyc-1" n = none := by
  have key : ∀ (m : Nat) (tail : List Commit),
      buildChainFuel cycProj m cycCommit1 tail = none ∧
      buildChainFuel cycProj m cycCommit2 tail = none := by
    intro m
    induction m with
    | zero => intro tail; exact ⟨rfl, rfl⟩
    | succ m ih =>
      intro tail
      constructor
      · show buildChainFuel cycProj m cycCommit2 (cycCommit1 :: tail) = none
        exact (ih (cycCommit1 :: tail)).2
      · show buildChainFuel cycProj m cycCommit1 (cycCommit2 :: tail) = none
        exact (ih (cycCommit2 :: tail)).1
  show (match buildChainFuel cycProj n cycCommit1 [] with
    | none => (none : Option (Except VcsErr (JsObj Item)))
    | some (.error e) => some (.error e)
    | some (.ok chain) => some (foldChain cycProj.items chain)) = none
  rw [(key n []).1]

/-- JavaScript `Array.from(new Set(files))`: deduplicate keeping the first
occurrence of each element. -/
def dedupKeepFirst (l : List String) : List String :=
  l.foldl (fun acc x => if acc.contains x then acc else acc ++ [x]) []

/-- The rename/copy scan of status (src/unnamed/part_002 lines 247-256):
walk the last items in order, hash each referenced blob (reading a missing
blob fails the operation), and stop at the first one whose hash equals the
new file's hash. -/
def findMatch (pool : JsObj String) : List Item → String →
    Except VcsErr (Option Item)
  | [], _ => .ok none
  | it :: rest, h =>
    match jGet pool it.content with
    | none => .error (.fileNotFound it.content)
    | some c => if c = h then .ok (some it) else findMatch pool rest h

/-- Accumulator of the status loop: the new items, the emitted changes in
order, and the id-generator counter. -/
structure StatusAcc where
  newItems : JsObj Item
  changes : List ItemChange
  ctr : Nat
deriving DecidableEq, Repr

/-- One candidate-path iteration of the status loop (src/unnamed/part_002
lines 220-262): skip directories; a missing path emits a removal if it was
tracked; an unchanged tracked path is skipped; a changed tracked path gets
a DUMMY placeholder item and a from/to change; an untracked path whose
hash matches some last item's blob gets a new item reusing that blob id
and a to-only change; otherwise a DUMMY item and a to-only change. -/
def statusStep (fs : FS) (lastItems : JsObj Item) (acc : StatusAcc)
    (filePath : String) : Except VcsErr StatusAcc :=
  if fs.dirs.contains filePath then .ok acc
  else
    let lastItem := (jValues lastItems).find? (fun i => i.path = filePath)
    match jGet fs.tree filePath with
    | none =>
      match lastItem with
      | some li => .ok { acc with changes := acc.changes ++ [⟨some li.id, none⟩] }
      | none => .ok acc
    | some newHash =>
      match lastItem with
      | some li =>
        match jGet fs.pool li.content with
        | none => .error (.fileNotFound li.content)
        | some lastHash =>
          if newHash = lastHash then .ok acc
          else
            .ok ⟨jSet acc.newItems (genId acc.ctr) ⟨genId acc.ctr, "DUMMY", filePath⟩,
              acc.changes ++ [⟨some li.id, some (genId acc.ctr)⟩], acc.ctr + 1⟩
      | none =>
        match findMatch fs.pool (jValues lastItems) newHash with
        | .error e => .error e
        | .ok (some m) =>
          .ok ⟨jSet acc.newItems (genId acc.ctr) ⟨genId acc.ctr, m.content, filePath⟩,
            acc.changes ++ [⟨none, some (genId acc.ctr)⟩], acc.ctr + 1⟩
        | .ok none =>
          .ok ⟨jSet acc.newItems (genId acc.ctr) ⟨genId acc.ctr, "DUMMY", filePath⟩,
            acc.changes ++ [⟨none, some (genId acc.ctr)⟩], acc.ctr + 1⟩

/-- The candidate list of status (src/unnamed/part_002 lines 209-215): an
explicit file list is deduplicated as-is, otherwise the union of the
working tree enumeration (files and directories, ignoring `.mvcs/**`) and
the last items' paths is deduplicated. -/
def candidateFiles (fs : FS) (lastItems : JsObj Item)
    (filesArg : Option (List String)) : List String :=
  match filesArg with
  | none =>
    dedupKeepFirst ((jKeys fs.tree ++ fs.dirs) ++
      (jValues lastItems).map (fun (i : Item) => i.path))
  | some fl => dedupKeepFirst fl

/-- The loop of status over the candidate files. -/
def statusCore (fs : FS) (lastItems : JsObj Item)
    (filesArg : Option (List String)) (ctr : Nat) :
    Except VcsErr (JsObj Item × StatusAcc) :=
  match (candidateFiles fs lastItems filesArg).foldlM
      (statusStep fs lastItems) ⟨[], [], ctr⟩ with
  | .error e => .error e
  | .ok acc => .ok (lastItems, acc)

/-- status (src/unnamed/part_002 lines 198-269): baseline from the current
commit via the history resolver, then the candidate loop. -/
def statusFuel (p : Project) (fs : FS) (filesArg : Option (List String))
    (ctr n : Nat) : Option (Except VcsErr (JsObj Item × StatusAcc)) :=
  match getCurrentCommit p with
  | .error e => some (.error e)
  | .ok none => some (statusCore fs [] filesArg ctr)
  | .ok (some lc) =>
    match getCommitItemsFuel p lc.id n with
    | none => none
    | some (.error e) => some (.error e)
    | some (.ok li) => some (statusCore fs li filesArg ctr)

theorem findMatch_eq_find (pool : JsObj String) (vals : List Item) (h : String)
    (hblobs : ∀ it ∈ vals, (jGet pool it.content).isSome) :
    findMatch pool vals h =
      .ok (vals.find? (fun it => jGet pool it.content = some h)) := by
  induction vals with
  | nil => rfl
  | cons it rest ih =>
    cases hc : jGet pool it.content with
    | none =>
      have := hblobs it (by simp)
      rw [hc] at this; simp at this
    | some c =>
      simp only [findMatch, hc]
      by_cases hch : c = h
      · subst hch
        simp [List.find?, hc]
      · rw [if_neg hch, ih (fun x hx => hblobs x (by simp [hx]))]
        simp [List.find?, hc, hch]

/-- C2: in the status loop, a candidate path that exists, is not a
directory, and has no last item with the same path is compared (by blob
hash) against every item of the baseline: if the first matching item is m,
the new item reuses the existing blob id m.content (no DUMMY sentinel) and
the emitted change is a to-only change; only when no baseline blob hash
matches is the new item created with the sentinel blob DUMMY.  Running
status on exactly this candidate produces exactly this step. -/
theorem C2_status_rename_detection (fs : FS) (lastItems : JsObj Item)
    (acc : StatusAcc) (filePath : String) (c : String)
    (hdir : fs.dirs.contains filePath = false)
    (hnolast : (jValues lastItems).find? (fun i => i.path = filePath) = none)
    (hfile : jGet fs.tree filePath = some c)
    (hblobs : ∀ it ∈ jValues lastItems, (jGet fs.pool it.content).isSome) :
    (∀ m, (jValues lastItems).find?
        (fun it => jGet fs.pool it.content = some c) = some m →
      statusStep fs lastItems acc filePath = .ok
        ⟨jSet acc.newItems (genId acc.ctr) ⟨genId acc.ctr, m.content, filePath⟩,
         acc.changes ++ [⟨none, some (genId acc.ctr)⟩], acc.ctr + 1⟩) ∧
    ((jValues lastItems).find?
        (fun it => jGet fs.pool it.content = some c) = none →
      statusStep fs lastItems acc filePath = .ok
        ⟨jSet acc.newItems (genId acc.ctr) ⟨genId acc.ctr, "DUMMY", filePath⟩,
         acc.changes ++ [⟨none, some (genId acc.ctr)⟩], acc.ctr + 1⟩) ∧
    (((jValues lastItems).find?
        (fun it => jGet fs.pool it.content = some c)).isSome ↔
      ∃ it ∈ jValues lastItems, jGet fs.pool it.content = some c) ∧
    (∀ r, statusStep fs lastItems ⟨[], [], acc.ctr⟩ filePath = .ok r →
      statusCore fs lastItems (some [filePath]) acc.ctr = .ok (lastItems, r)) := by
  refine ⟨?_, ?_, ?_, ?_⟩
  · intro m hm
    simp only [statusStep, hdir, Bool.false_eq_true, if_false, hnolast, hfile,
      findMatch_eq_find fs.pool (jValues lastItems) c hblobs, hm]
  · intro hnone
    simp only [statusStep, hdir, Bool.false_eq_true, if_false, hnolast, hfile,
      findMatch_eq_find fs.pool (jValues lastItems) c hblobs, hnone]
  · rw [List.find?_isSome]
    simp
  · intro r hr
    have hded : dedupKeepFirst [filePath] = [filePath] := rfl
    simp only [statusCore, hded, List.foldlM, hr]
    rfl

/-- Baseline items for the status and addContent witnesses. -/
def wLastItems : JsObj Item := [("item-1", wItem1)]

/-- Working tree and pool for the status witness: copy.txt duplicates the
tracked blob, new.txt is genuinely new. -/
def wFs2 : FS :=
  { tree := [("copy.txt", "X"), ("new.txt", "Y")], dirs := [],
    pool := [("blob-1", "X")] }

theorem C2_status_rename_detection_witness :
    statusStep wFs2 wLastItems ⟨[], [], 7⟩ "copy.txt" = .ok
      ⟨[("uuid-7", ⟨"uuid-7", "blob-1", "copy.txt"⟩)],
       [⟨none, some "uuid-7"⟩], 8⟩ ∧
    statusStep wFs2 wLastItems ⟨[], [], 7⟩ "new.txt" = .ok
      ⟨[("uuid-7", ⟨"uuid-7", "DUMMY", "new.txt"⟩)],
       [⟨none, some "uuid-7"⟩], 8⟩ :=
  ⟨by
    have h := (C2_status_rename_detection wFs2 wLastItems ⟨[], [], 7⟩
      "copy.txt" "X" (by decide) (by decide) (by decide)
      (by intro it hit; fin_cases hit <;> decide)).1 wItem1 (by decide)
    simpa using h,
   by
    have h := (C2_status_rename_detection wFs2 wLastItems ⟨[], [], 7⟩
      "new.txt" "Y" (by decide) (by decide) (by decide)
      (by intro it hit; fin_cases hit <;> decide)).2.1 (by decide)
    simpa using h⟩

namespace Rev2

/-- addContent of the refactored revision (src/unnamed/part_002 lines
544-559): hash the source file, scan every item of the items table in
order hashing its referenced blob, return the existing blob id on the
first match (deduplication, nothing is copied); otherwise allocate a fresh
blob id, copy the source into the pool under that id, and return it. -/
def addContent (items : JsObj Item) (fs : FS) (sourcePath : String)
    (ctr : Nat) : Except VcsErr (String × FS × Nat) :=
  match jGet fs.tree sourcePath with
  | none => .error (.fileNotFound sourcePath)
  | some hash =>
    match findMatch fs.pool (jValues items) hash with
    | .error e => .error e
    | .ok (some m) => .ok (m.content, fs, ctr)
    | .ok none =>
      .ok (genId ctr, { fs with pool := jSet fs.pool (genId ctr) hash }, ctr + 1)

end Rev2

/-- C3: addContent with deduplication (refactored revision): if some
existing item references a blob whose hash equals the source file's hash,
the call returns the first such item's blob identifier and leaves the
store untouched (no copy); otherwise it allocates the fresh identifier
genId ctr, copies the source content into the pool under it, and returns
it. -/
theorem C3_addContent_dedup (items : JsObj Item) (fs : FS) (src : String)
    (ctr : Nat) (c : String)
    (hfile : jGet fs.tree src = some c)
    (hblobs : ∀ it ∈ jValues items, (jGet fs.pool it.content).isSome) :
    (∀ m, (jValues items).find?
        (fun it => jGet fs.pool it.content = some c) = some m →
      Rev2.addContent items fs src ctr = .ok (m.content, fs, ctr)) ∧
    ((jValues items).find?
        (fun it => jGet fs.pool it.content = some c) = none →
      Rev2.addContent items fs src ctr =
        .ok (genId ctr, { fs with pool := jSet fs.pool (genId ctr) c },
          ctr + 1)) ∧
    (((jValues items).find?
        (fun it => jGet fs.pool it.content = some c)).isSome ↔
      ∃ it ∈ jValues items, jGet fs.pool it.content = some c) := by
  refine ⟨?_, ?_, ?_⟩
  · intro m hm
    simp only [Rev2.addContent, hfile,
      findMatch_eq_find fs.pool (jValues items) c hblobs, hm]
  · intro hnone
    simp only [Rev2.addContent, hfile,
      findMatch_eq_find fs.pool (jValues items) c hblobs, hnone]
  · rw [List.find?_isSome]
    simp

theorem C3_addContent_dedup_witness :
    Rev2.addContent wLastItems wFs2 "copy.txt" 7 = .ok ("blob-1", wFs2, 7) ∧
    Rev2.addContent wLastItems wFs2 "new.txt" 7 =
      .ok ("uuid-7",
        { wFs2 with pool := jSet wFs2.pool "uuid-7" "Y" }, 8) :=
  ⟨by
    have h := (C3_addContent_dedup wLastItems wFs2 "copy.txt" 7 "X"
      (by decide) (by intro it hit; fin_cases hit <;> decide)).1
      wItem1 (by decide)
    simpa using h,
   by
    have h := (C3_addContent_dedup wLastItems wFs2 "new.txt" 7 "Y"
      (by decide) (by intro it hit; fin_cases hit <;> decide)).2.1 (by decide)
    simpa using h⟩

/-- The branch guard of commit (src/unnamed/part_002 lines 272-280,
factored as ensureValidBranchForCommit in the refactored revision): the
JavaScript test `!currentBranch || !branches[currentBranch] ||
branches[currentBranch] !== currentCommitId`.  The second test sees the
JavaScript value `branches[cb]`, i.e. the stored value or undefined, which
is the Option join of the lookup. -/
def commitGuardFails (p : Project) : Bool :=
  !truthy p.currentBranch ||
  !truthy (jGet p.branches (p.currentBranch.getD "")).join ||
  decide ((jGet p.branches (p.currentBranch.getD "")).join ≠ p.currentCommitId)

/-- The DUMMY-resolving loop of commit (src/unnamed/part_002 lines 284-289)
with the addContent of the same revision inlined (lines 124-129): for each
new item whose blob is the DUMMY sentinel, read the working file (failing
if it is missing), allocate a fresh blob id, copy the content into the
pool, and replace the sentinel; all items are collected in order. -/
def resolveDummies : List Item → FS → Nat →
    Except VcsErr (List Item × FS × Nat)
  | [], fs, ctr => .ok ([], fs, ctr)
  | it :: rest, fs, ctr =>
    if it.content = "DUMMY" then
      match jGet fs.tree it.path with
      | none => .error (.fileNotFound it.path)
      | some content =>
        match resolveDummies rest
            { fs with pool := jSet fs.pool (genId ctr) content } (ctr + 1) with
        | .error e => .error e
        | .ok (l, f, c2) => .ok ({ it with content := genId ctr } :: l, f, c2)
    else
      match resolveDummies rest fs ctr with
      | .error e => .error e
      | .ok (l, f, c2) => .ok (it :: l, f, c2)

/-- The aggregate update at the end of commit (src/unnamed/part_002 lines
288 and 302-309): insert the resolved items, run the first-commit block
(root commit id, currentBranch ?? "main", defaultBranch := currentBranch),
insert the commit, advance the current branch tip and the current commit
id.  The branch key is the JavaScript string coercion of
`this.currentBranch as string`. -/
def applyCommitUpdate (p : Project) (resolved : List Item) (c : Commit) :
    Project :=
  let p1 := { p with
    items := resolved.foldl (fun o (it : Item) => jSet o it.id it) p.items }
  let p2 := if p1.commits = [] then
      { p1 with
        rootCommitId := some c.id
        currentBranch := some (p1.currentBranch.getD "main")
        defaultBranch := some (p1.currentBranch.getD "main") }
    else p1
  { p2 with
    commits := jSet p2.commits c.id c
    branches := jSet p2.branches (p2.currentBranch.getD "undefined") (some c.id)
    currentCommitId := some c.id }

/-- commit (src/unnamed/part_002 lines 271-312): branch guard, baseline,
status, DUMMY resolution, commit construction, aggregate update. -/
def commitFuel (p : Project) (fs : FS) (files : List String)
    (authorId title description now : String) (ctr n : Nat) :
    Option (Except VcsErr (Commit × Project × FS × Nat)) :=
  if commitGuardFails p ∧ p.commits ≠ [] then some (.error .notAtBranch)
  else
    match getCurrentCommit p with
    | .error e => some (.error e)
    | .ok lastCommit =>
      match statusFuel p fs (some files) ctr n with
      | none => none
      | some (.error e) => some (.error e)
      | some (.ok (_, acc)) =>
        match resolveDummies (jValues acc.newItems) fs acc.ctr with
        | .error e => some (.error e)
        | .ok (resolved, fs2, ctr2) =>
          let c : Commit := ⟨genId ctr2, lastCommit.map (fun lc => lc.id), [],
            authorId, title, some description, now, acc.changes⟩
          some (.ok (c, applyCommitUpdate p resolved c, fs2, ctr2 + 1))

theorem matchCommitId_ne_guard (p : Project) (s : String) :
    matchCommitId p s ≠ .error .notAtBranch := by
  intro h
  unfold matchCommitId at h
  split at h
  · cases h
  · split at h <;> cases h

theorem getCurrentCommit_ne_guard (p : Project) :
    getCurrentCommit p ≠ .error .notAtBranch := by
  intro h
  unfold getCurrentCommit at h
  split at h
  · cases h
  · split at h
    · cases h
    · split at h <;> cases h

theorem buildChainFuel_ne_guard (p : Project) :
    ∀ (n : Nat) (head : Commit) (tail : List Commit),
      buildChainFuel p n head tail ≠ some (.error .notAtBranch) := by
  intro n
  induction n with
  | zero => intro head tail h; cases h
  | succ n ih =>
    intro head tail h
    rw [buildChainFuel] at h
    split at h
    · cases h
    · split at h
      · split at h
        · cases h
        · exact ih _ _ h
      · cases h

theorem applyChange_ne_guard (items m : JsObj Item) (ch : ItemChange) :
    applyChange items m ch ≠ .error .notAtBranch := by
  intro h
  unfold applyChange at h
  split at h
  · split at h <;> cases h
  · cases h

theorem foldlM_applyChange_ne_guard (items : JsObj Item) :
    ∀ (l : List ItemChange) (m : JsObj Item),
      l.foldlM (applyChange items) m ≠ .error .notAtBranch := by
  intro l
  induction l with
  | nil => intro m h; cases h
  | cons ch chs ih =>
    intro m h
    rw [List.foldlM] at h
    cases hc : applyChange items m ch with
    | error e =>
      rw [hc] at h
      cases e <;> first
        | (cases h; exact applyChange_ne_guard items m ch hc)
        | cases h
    | ok m1 =>
      rw [hc] at h
      exact ih m1 h

theorem foldChain_ne_guard (items : JsObj Item) (chain : List Commit) :
    foldChain items chain ≠ .error .notAtBranch := by
  unfold foldChain
  have hgen : ∀ (cl : List Commit) (m : JsObj Item),
      cl.foldlM (applyCommitChanges items) m ≠ .error .notAtBranch := by
    intro cl
    induction cl with
    | nil => intro m h; cases h
    | cons c cs ih =>
      intro m h
      rw [List.foldlM] at h
      cases hc : applyCommitChanges items m c with
      | error e =>
        rw [hc] at h
        cases h
        exact foldlM_applyChange_ne_guard items c.changes m hc
      | ok m1 =>
        rw [hc] at h
        exact ih m1 h
  exact hgen chain []

theorem getCommitItemsFuel_ne_guard (p : Project) (s : String) (n : Nat) :
    getCommitItemsFuel p s n ≠ some (.error .notAtBranch) := by
  intro h
  unfold getCommitItemsFuel at h
  split at h
  · rename_i e he
    cases h
    exact matchCommitId_ne_guard p s he
  · split at h
    · cases h
    · split at h
      · cases h
      · rename_i he
        cases h
        exact buildChainFuel_ne_guard p n _ [] he
      · rename_i chain hb
        injection h with h2
        exact foldChain_ne_guard p.items chain h2

theorem findMatch_ne_guard (pool : JsObj String) :
    ∀ (vals : List Item) (h : String),
      findMatch pool vals h ≠ .error .notAtBranch := by
  intro vals
  induction vals with
  | nil => intro h hh; cases hh
  | cons it rest ih =>
    intro h hh
    rw [findMatch] at hh
    split at hh
    · cases hh
    · split at hh
      · cases hh
      · exact ih h hh

theorem statusStep_ne_guard (fs : FS) (li : JsObj Item) (acc : StatusAcc)
    (f : String) : statusStep fs li acc f ≠ .error .notAtBranch := by
  intro h
  simp only [statusStep] at h
  split at h
  · cases h
  · split at h
    · split at h <;> cases h
    · split at h
      · split at h
        · cases h
        · split at h <;> cases h
      · split at h
        · rename_i he
          cases h
          exact findMatch_ne_guard fs.pool _ _ he
        · cases h
        · cases h

theorem statusCore_ne_guard (fs : FS) (li : JsObj Item)
    (filesArg : Option (List String)) (ctr : Nat) :
    statusCore fs li filesArg ctr ≠ .error .notAtBranch := by
  intro h
  have hfold : ∀ (l : List String) (acc : StatusAcc),
      l.foldlM (statusStep fs li) acc ≠ .error .notAtBranch := by
    intro l
    induction l with
    | nil => intro acc hh; cases hh
    | cons x xs ih =>
      intro acc hh
      rw [List.foldlM] at hh
      cases hs : statusStep fs li acc x with
      | error e =>
        rw [hs] at hh
        cases hh
        exact statusStep_ne_guard fs li acc x hs
      | ok a1 =>
        rw [hs] at hh
        exact ih a1 hh
  unfold statusCore at h
  cases hf : (candidateFiles fs li filesArg).foldlM
      (statusStep fs li) (⟨[], [], ctr⟩ : StatusAcc) with
  | error e =>
    rw [hf] at h
    cases h
    exact hfold _ _ hf
  | ok acc =>
    rw [hf] at h
    cases h

theorem statusFuel_ne_guard (p : Project) (fs : FS)
    (filesArg : Option (List String)) (ctr n : Nat) :
    statusFuel p fs filesArg ctr n ≠ some (.error .notAtBranch) := by
  intro h
  unfold statusFuel at h
  split at h
  · rename_i he
    cases h
    exact getCurrentCommit_ne_guard p he
  · injection h with h2
    exact statusCore_ne_guard fs [] filesArg ctr h2
  · split at h
    · cases h
    · rename_i he
      cases h
      exact getCommitItemsFuel_ne_guard p _ n he
    · rename_i li hg
      injection h with h2
      exact statusCore_ne_guard fs li filesArg ctr h2

theorem resolveDummies_ne_guard :
    ∀ (l : List Item) (fs : FS) (ctr : Nat),
      resolveDummies l fs ctr ≠ .error .notAtBranch := by
  intro l
  induction l with
  | nil => intro fs ctr h; cases h
  | cons it rest ih =>
    intro fs ctr h
    rw [resolveDummies] at h
    split at h
    · split at h
      · cases h
      · split at h
        · cases h
          exact ih _ _ (by assumption)
        · cases h
    · split at h
      · cases h
        exact ih _ _ (by assumption)
      · cases h

/-- C5: commit fails with "Cannot commit when not at the branch" if and
only if the commit graph is non-empty and the branch guard condition holds
(currentBranch unset/falsy, or its branches entry unset/falsy, or that
entry strictly different from currentCommitId); the guard is skipped on an
empty graph, and in Detached state (currentCommitId set but different from
the current branch tip, commits non-empty) every commit call fails. -/
theorem C5_commit_branch_guard (p : Project) (fs : FS) (files : List String)
    (a t d now : String) (ctr n : Nat) :
    (commitFuel p fs files a t d now ctr n = some (.error .notAtBranch) ↔
      (p.commits ≠ [] ∧ commitGuardFails p = true)) ∧
    (VcsErr.notAtBranch.message = "Cannot commit when not at the branch") ∧
    (p.commits ≠ [] → ∀ cid, p.currentCommitId = some cid →
      (jGet p.branches (p.currentBranch.getD "")).join ≠ some cid →
      commitFuel p fs files a t d now ctr n = some (.error .notAtBranch)) := by
  have hiff : commitFuel p fs files a t d now ctr n =
      some (.error .notAtBranch) ↔
      (p.commits ≠ [] ∧ commitGuardFails p = true) := by
    constructor
    · intro h
      by_cases hcond : commitGuardFails p ∧ p.commits ≠ []
      · exact ⟨hcond.2, hcond.1⟩
      · exfalso
        unfold commitFuel at h
        rw [if_neg hcond] at h
        split at h
        · rename_i he
          cases h
          exact getCurrentCommit_ne_guard p he
        · split at h
          · cases h
          · rename_i he
            cases h
            exact statusFuel_ne_guard p fs (some files) ctr n he
          · split at h
            · rename_i he
              cases h
              exact resolveDummies_ne_guard _ fs _ he
            · cases h
    · rintro ⟨hne, hguard⟩
      unfold commitFuel
      rw [if_pos ⟨hguard, hne⟩]
  refine ⟨hiff, rfl, ?_⟩
  intro hne cid hcid hdiff
  apply hiff.mpr
  refine ⟨hne, ?_⟩
  unfold commitGuardFails
  rw [hcid]
  simp only [Bool.or_eq_true, Bool.not_eq_true', decide_eq_true_eq]
  exact Or.inr (by simpa [Option.join] using hdiff)

/-- A Detached concrete project: one commit, branch main at that commit,
but currentCommitId points elsewhere. -/
def wProjDetached : Project :=
  { id := "pid", authorId := "au", title := "pt", description := none,
    workingDir := "wd",
    branches := [("main", some "commit-a-1")], defaultBranch := some "main",
    currentBranch := some "main",
    commits := [("commit-a-1", wCommitA)],
    rootCommitId := some "commit-a-1",
    currentCommitId := some "commit-old-9", items := [] }

theorem C5_commit_branch_guard_witness :
    commitFuel wProjDetached wFs2 [] "au" "t" "" "2025" 0 1 =
      some (.error .notAtBranch) :=
  (C5_commit_branch_guard wProjDetached wFs2 [] "au" "t" "" "2025" 0 1).2.2
    (by decide) "commit-old-9" rfl (by decide)

theorem applyCommitUpdate_fields (p : Project) (resolved : List Item)
    (c : Commit) :
    (applyCommitUpdate p resolved c).commits =
      jSet p.commits c.id c ∧
    (applyCommitUpdate p resolved c).currentCommitId = some c.id ∧
    (applyCommitUpdate p resolved c).branches =
      jSet p.branches
        ((if p.commits = [] then some (p.currentBranch.getD "main")
          else p.currentBranch).getD "undefined") (some c.id) ∧
    (applyCommitUpdate p resolved c).currentBranch =
      (if p.commits = [] then some (p.currentBranch.getD "main")
        else p.currentBranch) ∧
    (applyCommitUpdate p resolved c).rootCommitId =
      (if p.commits = [] then some c.id else p.rootCommitId) ∧
    (applyCommitUpdate p resolved c).defaultBranch =
      (if p.commits = [] then some (p.currentBranch.getD "main")
        else p.defaultBranch) := by
  unfold applyCommitUpdate
  by_cases hc : p.commits = [] <;> simp [hc]

theorem commitFuel_ok_shape (p : Project) (fs : FS) (files : List String)
    (a t d now : String) (ctr n : Nat) (c : Commit) (pr : Project) (fs' : FS)
    (ctr' : Nat)
    (h : commitFuel p fs files a t d now ctr n = some (.ok (c, pr, fs', ctr'))) :
    ∃ resolved, pr = applyCommitUpdate p resolved c := by
  unfold commitFuel at h
  split at h
  · cases h
  · split at h
    · cases h
    · split at h
      · cases h
      · cases h
      · split at h
        · cases h
        · rename_i lastCommit hlc stat acc hstat res hres resolved fs2 ctr2 hrd
          injection h with h1
          injection h1 with h2
          injection h2 with hcEq h3
          injection h3 with hprEq _
          exact ⟨resolved, hprEq.symm.trans (by rw [hcEq])⟩

/-- C6 (amended): on a commit over a previously empty commits table, commit
sets rootCommitId to the new commit id, sets currentBranch to "main" only
if it was nullish (JavaScript `??`), and then sets defaultBranch to the
resulting currentBranch unconditionally, overwriting any previously set
defaultBranch; on every commit (first or later) it sets the current
branch's tip and currentCommitId to the new commit's id. -/
theorem C6_first_commit_effects (p : Project) (fs : FS) (files : List String)
    (a t d now : String) (ctr n : Nat) (c : Commit) (pr : Project) (fs' : FS)
    (ctr' : Nat)
    (h : commitFuel p fs files a t d now ctr n = some (.ok (c, pr, fs', ctr'))) :
    (p.commits = [] →
      pr.rootCommitId = some c.id ∧
      pr.currentBranch = some (p.currentBranch.getD "main") ∧
      pr.defaultBranch = some (p.currentBranch.getD "main") ∧
      jGet pr.branches (p.currentBranch.getD "main") = some (some c.id) ∧
      pr.currentCommitId = some c.id) ∧
    (pr.currentCommitId = some c.id ∧
      jGet pr.branches (pr.currentBranch.getD "undefined") = some (some c.id)) := by
  rcases commitFuel_ok_shape p fs files a t d now ctr n c pr fs' ctr' h with
    ⟨resolved, rfl⟩
  rcases applyCommitUpdate_fields p resolved c with
    ⟨hcom, hcur, hbr, hcb, hroot, hdef⟩
  constructor
  · intro hc
    rw [if_pos hc] at hbr hcb hroot hdef
    refine ⟨hroot, hcb, hdef, ?_, hcur⟩
    rw [hbr]
    simp only [Option.getD_some]
    exact jGet_jSet_self _ _ _
  · refine ⟨hcur, ?_⟩
    rw [hbr, hcb]
    exact jGet_jSet_self _ _ _

/-- A project with an empty commit graph but an already set defaultBranch
("dev"), the state produced by createBranch("dev") right after create. -/
def wProj6 : Project :=
  { id := "pid", authorId := "au", title := "pt", description := none,
    workingDir := "wd",
    branches := [("dev", none)], defaultBranch := some "dev",
    currentBranch := none, commits := [], rootCommitId := none,
    currentCommitId := none, items := [] }

/-- C6 counterexample: on the first commit the code overwrites the already
set defaultBranch "dev" with the new currentBranch "main", although the
claim says defaultBranch is set only if it was unset. -/
theorem C6_first_commit_effects_counterexample :
    wProj6.commits = [] ∧ wProj6.defaultBranch = some "dev" ∧
    (commitFuel wProj6 wFs2 [] "au" "t" "" "2025" 0 1).map
      (Except.map (fun r => r.2.1.defaultBranch)) = some (.ok (some "main")) :=
  ⟨rfl, rfl, rfl⟩

/-- The commit produced by the witness run of commitFuel on wProj6. -/
def wC6c : Commit :=
  { id := "uuid-0", parent := none, children := [], authorId := "au",
    title := "t", description := some "", date := "2025", changes := [] }

theorem C6_first_commit_effects_witness :
    (applyCommitUpdate wProj6 [] wC6c).rootCommitId = some "uuid-0" ∧
    (applyCommitUpdate wProj6 [] wC6c).defaultBranch = some "main" ∧
    (applyCommitUpdate wProj6 [] wC6c).currentCommitId = some "uuid-0" := by
  have h := C6_first_commit_effects wProj6 wFs2 [] "au" "t" "" "2025" 0 1
    wC6c (applyCommitUpdate wProj6 [] wC6c) wFs2 1 (by decide)
  exact ⟨(h.1 rfl).1, (h.1 rfl).2.2.1, (h.1 rfl).2.2.2.2⟩

/-- The materialize loop of checkout (src/unnamed/part_002 lines 333-345):
for each target item in order, read its blob (a missing blob fails); if the
path was among the originally current files, read the current file and
skip when the hashes agree; otherwise copy the blob over the path. -/
def materialize (pool : JsObj String) (currentFiles : List String) :
    List Item → JsObj String → Except VcsErr (JsObj String)
  | [], t => .ok t
  | it :: rest, t =>
    match jGet pool it.content with
    | none => .error (.fileNotFound it.content)
    | some blob =>
      if currentFiles.contains it.path then
        match jGet t it.path with
        | none => .error (.fileNotFound it.path)
        | some cur =>
          if blob = cur then materialize pool currentFiles rest t
          else materialize pool currentFiles rest (jSet t it.path blob)
      else materialize pool currentFiles rest (jSet t it.path blob)

/-- checkout (src/unnamed/part_002 lines 314-348): resolve the prefix, get
the target items, delete every current file whose path is not a target
path, materialize the target items, and set currentCommitId. -/
def checkoutFuel (p : Project) (fs : FS) (s : String) (n : Nat) :
    Option (Except VcsErr (Project × FS)) :=
  match matchCommitId p s with
  | .error e => some (.error e)
  | .ok cid =>
    match getCommitItemsFuel p cid n with
    | none => none
    | some (.error e) => some (.error e)
    | some (.ok citems) =>
      let currentFiles := jKeys fs.tree
      let commitFiles := (jValues citems).map (fun (i : Item) => i.path)
      let tree1 := fs.tree.filter (fun kv => commitFiles.contains kv.1)
      match materialize fs.pool currentFiles (jValues citems) tree1 with
      | .error e => some (.error e)
      | .ok tree2 =>
        some (.ok ({ p with currentCommitId := some cid },
          { fs with tree := tree2 }))

/-- checkoutBranch (src/unnamed/part_002 lines 350-358): the branch must
exist (truthy tip), the tip commit must exist, then checkout the tip and
set currentBranch to the branch name. -/
def checkoutBranchFuel (p : Project) (fs : FS) (name : String) (n : Nat) :
    Option (Except VcsErr (Project × FS)) :=
  if !truthy (jGet p.branches name).join then
    some (.error (.branchNotFound name))
  else
    let tip := (jGet p.branches name).join.getD ""
    if !(jGet p.commits tip).isSome then
      some (.error (.branchCommitNotFound tip name))
    else
      match checkoutFuel p fs tip n with
      | none => none
      | some (.error e) => some (.error e)
      | some (.ok (p1, fs1)) =>
        some (.ok ({ p1 with currentBranch := some name }, fs1))

theorem jGet_filter_contains {α : Type} (o : JsObj α) (keep : List String)
    (pth : String) (h : keep.contains pth = false) :
    jGet (o.filter (fun kv => keep.contains kv.1)) pth = none := by
  induction o with
  | nil => rfl
  | cons kv o ih =>
    by_cases hk : keep.contains kv.1
    · rw [List.filter_cons_of_pos (by simpa using hk)]
      have hne : ¬ kv.1 = pth := by
        intro hh; rw [hh] at hk; rw [h] at hk; cases hk
      rw [jGet_cons_ne _ _ _ hne]
      exact ih
    · rw [List.filter_cons_of_neg (by simpa using hk)]
      exact ih

theorem materialize_not_target (pool : JsObj String)
    (currentFiles : List String) :
    ∀ (items : List Item) (t t2 : JsObj String) (pth : String),
      materialize pool currentFiles items t = .ok t2 →
      (∀ it ∈ items, it.path ≠ pth) →
      jGet t2 pth = jGet t pth := by
  intro items
  induction items with
  | nil =>
    intro t t2 pth h _
    cases h
    rfl
  | cons it rest ih =>
    intro t t2 pth h hnp
    rw [materialize] at h
    split at h
    · cases h
    · rename_i blob hblob
      have hne : it.path ≠ pth := hnp it (by simp)
      split at h
      · split at h
        · cases h
        · split at h
          · exact ih t t2 pth h (fun x hx => hnp x (by simp [hx]))
          · rw [ih _ t2 pth h (fun x hx => hnp x (by simp [hx]))]
            exact jGet_jSet_ne _ _ _ _ (fun hh => hne hh.symm)
      · rw [ih _ t2 pth h (fun x hx => hnp x (by simp [hx]))]
        exact jGet_jSet_ne _ _ _ _ (fun hh => hne hh.symm)

/-- C7: on success, checkout leaves every aggregate field except
currentCommitId unchanged (currentBranch, branches, commits, items,
defaultBranch, rootCommitId, identity fields and workingDir), sets
currentCommitId to the resolved id, deletes every working-tree file whose
path is not a target item path, and touches neither the blob pool nor the
directories; checkoutBranch is checkout of the branch tip followed by
setting currentBranch to the branch name. -/
theorem C7_checkout_frame :
    (∀ (p : Project) (fs : FS) (s : String) (n : Nat) (cid : String)
        (citems : JsObj Item) (p' : Project) (fs' : FS),
      checkoutFuel p fs s n = some (.ok (p', fs')) →
      matchCommitId p s = .ok cid →
      getCommitItemsFuel p cid n = some (.ok citems) →
      p' = { p with currentCommitId := some cid } ∧
      p'.currentBranch = p.currentBranch ∧
      p'.branches = p.branches ∧
      p'.commits = p.commits ∧
      p'.items = p.items ∧
      p'.defaultBranch = p.defaultBranch ∧
      p'.rootCommitId = p.rootCommitId ∧
      p'.id = p.id ∧ p'.authorId = p.authorId ∧ p'.title = p.title ∧
      p'.description = p.description ∧ p'.workingDir = p.workingDir ∧
      p'.currentCommitId = some cid ∧
      fs'.pool = fs.pool ∧ fs'.dirs = fs.dirs ∧
      (∀ pth, (∀ it ∈ jValues citems, it.path ≠ pth) →
        ((jValues citems).map (fun (i : Item) => i.path)).contains pth = false →
        jGet fs'.tree pth = none)) ∧
    (∀ (p : Project) (fs : FS) (name : String) (n : Nat) (p'' : Project)
        (fs'' : FS),
      checkoutBranchFuel p fs name n = some (.ok (p'', fs'')) →
      truthy (jGet p.branches name).join = true ∧
      ∀ (p1 : Project) (fs1 : FS),
        checkoutFuel p fs ((jGet p.branches name).join.getD "") n =
          some (.ok (p1, fs1)) →
        p'' = { p1 with currentBranch := some name } ∧ fs'' = fs1) := by
  constructor
  · intro p fs s n cid citems p' fs' h hm hci
    simp only [checkoutFuel, hm, hci] at h
    split at h
    · cases h
    · rename_i tree2 hmat
      injection h with h1
      injection h1 with h2
      injection h2 with hp hf
      subst hp
      subst hf
      refine ⟨rfl, rfl, rfl, rfl, rfl, rfl, rfl, rfl, rfl, rfl, rfl, rfl, rfl,
        rfl, rfl, ?_⟩
      intro pth hnp hcont
      have h1 := materialize_not_target fs.pool (jKeys fs.tree)
        (jValues citems) _ tree2 pth hmat hnp
      rw [h1]
      exact jGet_filter_contains fs.tree _ pth hcont
  · intro p fs name n p'' fs'' h
    unfold checkoutBranchFuel at h
    split at h
    · cases h
    · rename_i htr
      refine ⟨by simpa using htr, ?_⟩
      intro p1 fs1 hco
      simp only [hco] at h
      split at h
      · simp at h
      · injection h with h1
        injection h1 with h2
        injection h2 with hp hf
        exact ⟨hp.symm, hf.symm⟩

/-- Working tree and pool for the checkout witness. -/
def wFs7 : FS :=
  { tree := [("old.txt", "Z")], dirs := [], pool := [("blob-1", "X")] }

/-- The checkout-to-root result state of the witness. -/
def wProj1ckA : Project := { wProj1 with currentCommitId := some "commit-a-1" }

/-- The working tree after the witness checkout of the root commit. -/
def wFs7ckA : FS := { wFs7 with tree := [] }

/-- The working tree after the witness checkoutBranch of main. -/
def wFs7ckB : FS := { wFs7 with tree := [("f1.txt", "X")] }

theorem C7_checkout_frame_witness :
    wProj1ckA = { wProj1 with currentCommitId := some "commit-a-1" } ∧
    wProj1ckA.currentBranch = wProj1.currentBranch ∧
    wFs7ckA.pool = wFs7.pool ∧
    jGet wFs7ckA.tree "old.txt" = none ∧
    wProj1 = { wProj1 with currentBranch := some "main" } := by
  have h1 := C7_checkout_frame.1 wProj1 wFs7 "commit-a-1" 2 "commit-a-1" []
    wProj1ckA wFs7ckA (by decide) (by decide) (by decide)
  have h2 := C7_checkout_frame.2 wProj1 wFs7 "main" 2 wProj1 wFs7ckB
    (by decide)
  obtain ⟨a1, a2, -, -, -, -, -, -, -, -, -, -, -, a14, -, a16⟩ := h1
  exact ⟨a1, a2, a14, a16 "old.txt" (by simp [jValues]) rfl,
    (h2.2 wProj1 wFs7ckB (by decide)).1⟩

/-- createBranch (src/unnamed/part_002 lines 360-369): the assignment
`this.branches[branchName] = this.currentCommitId as string` stores the raw
value, which is undefined when currentCommitId is unset (possible exactly
when the commit graph is empty); defaultBranch is set to the name if it was
falsy. -/
def createBranch (p : Project) (name : String) : Except VcsErr Project :=
  if !truthy p.currentCommitId && decide (p.commits ≠ []) then
    .error .noCurrentCommit
  else if truthy (jGet p.branches name).join then .error (.branchExists name)
  else .ok { p with
    branches := jSet p.branches name p.currentCommitId
    defaultBranch :=
      if truthy p.defaultBranch then p.defaultBranch else some name }

/-- deleteBranch (src/unnamed/part_002 lines 371-383). -/
def deleteBranch (p : Project) (name : String) : Except VcsErr Project :=
  if !truthy (jGet p.branches name).join then .error (.branchNotFound name)
  else if p.branches.length = 1 then .error .onlyBranch
  else if p.currentBranch = some name then .error .deleteCurrentBranch
  else if p.defaultBranch = some name then .error .deleteDefaultBranch
  else .ok { p with branches := jDel p.branches name }

/-- renameBranch (src/unnamed/part_002 lines 385-393): re-key the mapping
and update currentBranch if it was the old name.  (This revision does not
update defaultBranch.) -/
def renameBranch (p : Project) (oldName newName : String) :
    Except VcsErr Project :=
  if !truthy (jGet p.branches oldName).join then
    .error (.branchNotFound oldName)
  else if truthy (jGet p.branches newName).join then
    .error (.branchExists newName)
  else
    let p1 := { p with
      branches := jSet p.branches newName (jGet p.branches oldName).join }
    let p2 := if p.currentBranch = some oldName then
        { p1 with currentBranch := some newName }
      else p1
    .ok { p2 with branches := jDel p2.branches oldName }

/-- setDefaultBranch (src/unnamed/part_002 lines 395-398). -/
def setDefaultBranch (p : Project) (name : String) : Except VcsErr Project :=
  if !truthy (jGet p.branches name).join then .error (.branchNotFound name)
  else .ok { p with defaultBranch := some name }

/-- The constructor reached through Project.create (src/unnamed/part_002
lines 55-83): fresh id and the given identity when both authorId and title
are truthy, the EMPTY defaults otherwise; all collections start empty. -/
def createProject (workingDir authorId title : String)
    (description : Option String) (ctr : Nat) : Project × Nat :=
  if authorId ≠ "" ∧ title ≠ "" then
    ({ id := genId ctr, authorId := authorId, title := title,
       description := description, workingDir := workingDir,
       branches := [], defaultBranch := none, currentBranch := none,
       commits := [], rootCommitId := none, currentCommitId := none,
       items := [] }, ctr + 1)
  else
    ({ id := "EMPTY_ID", authorId := "EMPTY_AUTHOR_ID",
       title := "EMPTY_TITLE", description := none,
       workingDir := workingDir,
       branches := [], defaultBranch := none, currentBranch := none,
       commits := [], rootCommitId := none, currentCommitId := none,
       items := [] }, ctr)

/-- Project states reachable from create by the core operations; every step
requires the operation to succeed, with arbitrary storage state, arguments
and id counter. -/
inductive Reach : Project → Prop
  | create (wd aid t : String) (d : Option String) (ctr : Nat) :
      Reach (createProject wd aid t d ctr).1
  | step_commit (p : Project) (fs : FS) (files : List String)
      (a t d now : String) (ctr n : Nat) (c : Commit) (pr : Project)
      (fs' : FS) (ctr' : Nat) :
      Reach p →
      commitFuel p fs files a t d now ctr n = some (.ok (c, pr, fs', ctr')) →
      Reach pr
  | step_checkout (p : Project) (fs : FS) (s : String) (n : Nat)
      (pr : Project) (fs' : FS) :
      Reach p → checkoutFuel p fs s n = some (.ok (pr, fs')) → Reach pr
  | step_checkoutBranch (p : Project) (fs : FS) (name : String) (n : Nat)
      (pr : Project) (fs' : FS) :
      Reach p → checkoutBranchFuel p fs name n = some (.ok (pr, fs')) →
      Reach pr
  | step_createBranch (p : Project) (name : String) (pr : Project) :
      Reach p → createBranch p name = .ok pr → Reach pr
  | step_deleteBranch (p : Project) (name : String) (pr : Project) :
      Reach p → deleteBranch p name = .ok pr → Reach pr
  | step_renameBranch (p : Project) (oldName newName : String) (pr : Project) :
      Reach p → renameBranch p oldName newName = .ok pr → Reach pr
  | step_setDefaultBranch (p : Project) (name : String) (pr : Project) :
      Reach p → setDefaultBranch p name = .ok pr → Reach pr

/-- The invariant that actually holds: every branch entry whose stored
value is defined names a commit present in the commits table, and
currentCommitId, when set, is present too. -/
def branchTipsOkB (p : Project) : Bool :=
  (p.branches.all (fun kv =>
    match kv.2 with
    | none => true
    | some cid => (jGet p.commits cid).isSome)) &&
  (match p.currentCommitId with
    | none => true
    | some cid => (jGet p.commits cid).isSome)

/-- The invariant exactly as the claim states it: every branch name maps
to a (defined) commit id that exists in the commits table. -/
def strictBranchTipsB (p : Project) : Bool :=
  p.branches.all (fun kv =>
    match kv.2 with
    | none => false
    | some cid => (jGet p.commits cid).isSome)

theorem branchTipsOkB_iff (p : Project) :
    branchTipsOkB p = true ↔
      ((∀ kv ∈ p.branches, ∀ cid, kv.2 = some cid →
          (jGet p.commits cid).isSome = true) ∧
       (∀ cid, p.currentCommitId = some cid →
          (jGet p.commits cid).isSome = true)) := by
  unfold branchTipsOkB
  rw [Bool.and_eq_true, List.all_eq_true]
  constructor
  · rintro ⟨h1, h2⟩
    constructor
    · intro kv hkv cid hcid
      have := h1 kv hkv
      rw [hcid] at this
      exact this
    · intro cid hcid
      rw [hcid] at h2
      exact h2
  · rintro ⟨h1, h2⟩
    constructor
    · intro kv hkv
      cases hv : kv.2 with
      | none => rfl
      | some cid => exact h1 kv hkv cid hv
    · cases hc : p.currentCommitId with
      | none => rfl
      | some cid => exact h2 cid hc

theorem mem_jSet {α : Type} (o : JsObj α) (k : String) (v : α) :
    ∀ kv ∈ jSet o k v, kv = (k, v) ∨ kv ∈ o := by
  induction o with
  | nil => intro kv hkv; simp [jSet] at hkv; exact Or.inl hkv
  | cons e o ih =>
    intro kv hkv
    by_cases he : e.1 = k
    · rw [jSet, if_pos he] at hkv
      rcases List.mem_cons.mp hkv with h | h
      · exact Or.inl h
      · exact Or.inr (List.mem_cons.mpr (Or.inr h))
    · rw [jSet, if_neg he] at hkv
      rcases List.mem_cons.mp hkv with h | h
      · exact Or.inr (List.mem_cons.mpr (Or.inl h))
      · rcases ih kv h with h' | h'
        · exact Or.inl h'
        · exact Or.inr (List.mem_cons.mpr (Or.inr h'))

theorem mem_jDel {α : Type} (o : JsObj α) (k : String) :
    ∀ kv ∈ jDel o k, kv ∈ o := by
  induction o with
  | nil => intro kv hkv; cases hkv
  | cons e o ih =>
    intro kv hkv
    by_cases he : e.1 = k
    · rw [jDel, if_pos he] at hkv
      exact List.mem_cons.mpr (Or.inr (ih kv hkv))
    · rw [jDel, if_neg he] at hkv
      rcases List.mem_cons.mp hkv with h | h
      · exact List.mem_cons.mpr (Or.inl h)
      · exact List.mem_cons.mpr (Or.inr (ih kv h))

theorem mem_of_jGet {α : Type} (o : JsObj α) (k : String) (v : α)
    (h : jGet o k = some v) : (k, v) ∈ o := by
  induction o with
  | nil => simp [jGet, List.find?] at h
  | cons e o ih =>
    rcases e with ⟨k1, v1⟩
    by_cases he : k1 = k
    · subst he
      rw [jGet_cons_self _ _ _ rfl] at h
      injection h with h'
      subst h'
      exact List.mem_cons_self _ _
    · rw [jGet_cons_ne _ _ _ he] at h
      exact List.mem_cons.mpr (Or.inr (ih h))

theorem jGet_jSet_isSome {α : Type} (o : JsObj α) (k k' : String) (v : α)
    (h : (jGet o k').isSome = true) : (jGet (jSet o k v) k').isSome = true := by
  by_cases hk : k' = k
  · subst hk
    rw [jGet_jSet_self]
    rfl
  · rw [jGet_jSet_ne _ _ _ _ hk]
    exact h

theorem checkoutFuel_ok_shape (p : Project) (fs : FS) (s : String) (n : Nat)
    (pr : Project) (fs' : FS)
    (h : checkoutFuel p fs s n = some (.ok (pr, fs'))) :
    ∃ cid, matchCommitId p s = .ok cid ∧
      pr = { p with currentCommitId := some cid } ∧
      cid ∈ jKeys p.commits := by
  simp only [checkoutFuel] at h
  split at h
  · cases h
  · rename_i cid hm
    split at h
    · cases h
    · cases h
    · split at h
      · cases h
      · injection h with h1
        injection h1 with h2
        injection h2 with hp hf
        exact ⟨cid, hm, hp.symm, (matchCommitId_ok p s cid hm).1⟩

theorem checkoutBranchFuel_ok_shape (p : Project) (fs : FS) (name : String)
    (n : Nat) (pr : Project) (fs' : FS)
    (h : checkoutBranchFuel p fs name n = some (.ok (pr, fs'))) :
    ∃ p1 fs1, checkoutFuel p fs ((jGet p.branches name).join.getD "") n =
        some (.ok (p1, fs1)) ∧
      pr = { p1 with currentBranch := some name } := by
  simp only [checkoutBranchFuel] at h
  split at h
  · cases h
  · split at h
    · cases h
    · split at h
      · cases h
      · cases h
      · rename_i p1 fs1 hco
        injection h with h1
        injection h1 with h2
        injection h2 with hp hf
        exact ⟨p1, fs1, hco, hp.symm⟩

theorem createBranch_ok_shape (p : Project) (name : String) (pr : Project)
    (h : createBranch p name = .ok pr) :
    pr = { p with
      branches := jSet p.branches name p.currentCommitId
      defaultBranch :=
        if truthy p.defaultBranch then p.defaultBranch else some name } ∧
    (truthy p.currentCommitId = true ∨ p.commits = []) := by
  unfold createBranch at h
  split at h
  · cases h
  · rename_i hguard
    split at h
    · cases h
    · injection h with h1
      constructor
      · exact h1.symm
      · rw [Bool.and_eq_true] at hguard
        push_neg at hguard
      -- hguard gives the disjunction
        by_cases ht : truthy p.currentCommitId
        · exact Or.inl ht
        · right
          by_cases hc : p.commits = []
          · exact hc
          · exfalso
            exact hguard (by simpa using ht) (by simpa using hc)

theorem deleteBranch_ok_shape (p : Project) (name : String) (pr : Project)
    (h : deleteBranch p name = .ok pr) :
    pr = { p with branches := jDel p.branches name } := by
  unfold deleteBranch at h
  split at h
  · cases h
  · split at h
    · cases h
    · split at h
      · cases h
      · split at h
        · cases h
        · injection h with h1
          exact h1.symm

theorem renameBranch_ok_shape (p : Project) (oldName newName : String)
    (pr : Project) (h : renameBranch p oldName newName = .ok pr) :
    pr.branches =
      jDel (jSet p.branches newName (jGet p.branches oldName).join) oldName ∧
    pr.commits = p.commits ∧ pr.currentCommitId = p.currentCommitId := by
  unfold renameBranch at h
  split at h
  · cases h
  · split at h
    · cases h
    · injection h with h1
      subst h1
      by_cases hc : p.currentBranch = some oldName <;> simp [hc]

theorem setDefaultBranch_ok_shape (p : Project) (name : String) (pr : Project)
    (h : setDefaultBranch p name = .ok pr) :
    pr = { p with defaultBranch := some name } := by
  unfold setDefaultBranch at h
  split at h
  · cases h
  · injection h with h1
    exact h1.symm

/-- C8 (amended): in every project state reachable from create by the core
operations, every branch whose stored tip is defined maps to a commit that
exists in the commits table, and currentCommitId, when set, names an
existing commit; the invariant is weaker than claimed because createBranch
on an empty commit graph records a branch with an undefined tip. -/
theorem C8_branch_tips_invariant (p : Project) (hp : Reach p) :
    branchTipsOkB p = true := by
  induction hp with
  | create wd aid t d ctr =>
    unfold createProject
    split <;> rfl
  | step_commit p fs files a t d now ctr n c pr fs' ctr' hR hok ih =>
    rcases commitFuel_ok_shape p fs files a t d now ctr n c pr fs' ctr' hok
      with ⟨resolved, rfl⟩
    rcases applyCommitUpdate_fields p resolved c with
      ⟨hcom, hcur, hbr, hcb, hroot, hdef⟩
    rw [branchTipsOkB_iff] at ih ⊢
    constructor
    · intro kv hkv cid hcid
      rw [hbr] at hkv
      rw [hcom]
      rcases mem_jSet _ _ _ kv hkv with hkv' | hmem
      · subst hkv'
        simp only at hcid
        injection hcid with h'
        subst h'
        rw [jGet_jSet_self]
        rfl
      · exact jGet_jSet_isSome _ _ _ _ (ih.1 kv hmem cid hcid)
    · intro cid hcid
      rw [hcur] at hcid
      injection hcid with h'
      subst h'
      rw [hcom, jGet_jSet_self]
      rfl
  | step_checkout p fs s n pr fs' hR hok ih =>
    rcases checkoutFuel_ok_shape p fs s n pr fs' hok with ⟨cid, hm, rfl, hmem⟩
    rw [branchTipsOkB_iff] at ih ⊢
    refine ⟨fun kv hkv cid' hcid' => ih.1 kv hkv cid' hcid', ?_⟩
    intro cid' hcid'
    simp only at hcid'
    injection hcid' with h'
    subst h'
    exact jGet_isSome_of_mem_keys _ _ hmem
  | step_checkoutBranch p fs name n pr fs' hR hok ih =>
    rcases checkoutBranchFuel_ok_shape p fs name n pr fs' hok with
      ⟨p1, fs1, hco, rfl⟩
    rcases checkoutFuel_ok_shape p fs _ n p1 fs1 hco with ⟨cid, hm, rfl, hmem⟩
    rw [branchTipsOkB_iff] at ih ⊢
    refine ⟨fun kv hkv cid' hcid' => ih.1 kv hkv cid' hcid', ?_⟩
    intro cid' hcid'
    simp only at hcid'
    injection hcid' with h'
    subst h'
    exact jGet_isSome_of_mem_keys _ _ hmem
  | step_createBranch p name pr hR hok ih =>
    rcases createBranch_ok_shape p name pr hok with ⟨rfl, hdisj⟩
    rw [branchTipsOkB_iff] at ih ⊢
    refine ⟨?_, ih.2⟩
    intro kv hkv cid hcid
    rcases mem_jSet _ _ _ kv hkv with hkv' | hmem
    · subst hkv'
      exact ih.2 cid hcid
    · exact ih.1 kv hmem cid hcid
  | step_deleteBranch p name pr hR hok ih =>
    rcases deleteBranch_ok_shape p name pr hok with rfl
    rw [branchTipsOkB_iff] at ih ⊢
    refine ⟨?_, ih.2⟩
    intro kv hkv cid hcid
    exact ih.1 kv (mem_jDel _ _ kv hkv) cid hcid
  | step_renameBranch p oldName newName pr hR hok ih =>
    rcases renameBranch_ok_shape p oldName newName pr hok with
      ⟨hbr, hcom, hccid⟩
    rw [branchTipsOkB_iff] at ih ⊢
    constructor
    · intro kv hkv cid hcid
      rw [hbr] at hkv
      rw [hcom]
      have hkv2 := mem_jDel _ _ kv hkv
      rcases mem_jSet _ _ _ kv hkv2 with hkv' | hmem
      · subst hkv'
        simp only at hcid
        have hold : jGet p.branches oldName = some (some cid) := by
          cases hl : jGet p.branches oldName with
          | none => rw [hl] at hcid; cases hcid
          | some v =>
            rw [hl] at hcid
            simp only [Option.join, Option.some_bind, id_eq] at hcid
            rw [hcid]
        exact ih.1 (oldName, some cid) (mem_of_jGet _ _ _ hold) cid rfl
      · exact ih.1 kv hmem cid hcid
    · intro cid hcid
      rw [hccid] at hcid
      rw [hcom]
      exact ih.2 cid hcid
  | step_setDefaultBranch p name pr hR hok ih =>
    rcases setDefaultBranch_ok_shape p name pr hok with rfl
    rw [branchTipsOkB_iff] at ih ⊢
    exact ih

/-- The state right after Project.create, before any commit. -/
def wProj8base : Project := (createProject "wd" "au" "t" none 0).1

/-- The state after createBranch("dev") on the empty graph: branch "dev"
has an undefined tip. -/
def wProj8 : Project :=
  { wProj8base with branches := [("dev", none)], defaultBranch := some "dev" }

/-- C8 counterexample: createBranch on the empty commit graph is a legal
core operation and yields a reachable state in which the branch "dev" does
not map to any commit id of the commits table, refuting the claimed
invariant. -/
theorem C8_branch_tips_invariant_counterexample :
    Reach wProj8 ∧ strictBranchTipsB wProj8 = false :=
  ⟨Reach.step_createBranch wProj8base "dev" wProj8
      (Reach.create "wd" "au" "t" none 0) (by decide),
    by decide⟩

theorem C8_branch_tips_invariant_witness :
    branchTipsOkB wProj8 = true :=
  C8_branch_tips_invariant wProj8
    (Reach.step_createBranch wProj8base "dev" wProj8
      (Reach.create "wd" "au" "t" none 0) (by decide))

/-- The JSON document written by save (src/unnamed/part_002 lines 85-99,
115-122): toJSON lists exactly the eleven persisted fields;
JSON.stringify then omits undefined-valued keys, so each optional field is
either present with a string value or absent, and inside the branches
object an entry stored with an undefined tip disappears.  Nested commit
and item records round-trip unchanged (their absent optional fields parse
back as absent).  workingDir has no field here: it is never serialized. -/
structure Dump where
  idF : Option String
  authorIdF : Option String
  titleF : Option String
  descriptionF : Option String
  branchesF : Option (JsObj String)
  defaultBranchF : Option String
  currentBranchF : Option String
  commitsF : Option (JsObj Commit)
  rootCommitIdF : Option String
  currentCommitIdF : Option String
  itemsF : Option (JsObj Item)
deriving DecidableEq, Repr

/-- JSON.stringify on the branches object: undefined-valued keys are
dropped. -/
def dropUndefined (b : JsObj (Option String)) : JsObj String :=
  b.filterMap (fun kv => kv.2.map (fun v => (kv.1, v)))

/-- save as a document (JSON.stringify of toJSON, src/unnamed/part_002
lines 85-99 and 115-122). -/
def serializeDump (p : Project) : Dump :=
  { idF := some p.id, authorIdF := some p.authorId, titleF := some p.title,
    descriptionF := p.description,
    branchesF := some (dropUndefined p.branches),
    defaultBranchF := p.defaultBranch, currentBranchF := p.currentBranch,
    commitsF := some p.commits, rootCommitIdF := p.rootCommitId,
    currentCommitIdF := p.currentCommitId, itemsF := some p.items }

/-- fromJSON (src/unnamed/part_002 lines 101-106): copy every
PROJECT_DUMP_KEYS field that is present in the dump onto the aggregate;
absent fields keep the aggregate's values; keys outside PROJECT_DUMP_KEYS
are filtered out, so unknown fields of the dump are ignored by
construction; workingDir is never assigned. -/
def fromJSONd (p : Project) (d : Dump) : Project :=
  { p with
    id := d.idF.getD p.id
    authorId := d.authorIdF.getD p.authorId
    title := d.titleF.getD p.title
    description :=
      match d.descriptionF with | some s => some s | none => p.description
    branches :=
      match d.branchesF with
      | some b => b.map (fun kv => (kv.1, some kv.2))
      | none => p.branches
    defaultBranch :=
      match d.defaultBranchF with | some s => some s | none => p.defaultBranch
    currentBranch :=
      match d.currentBranchF with | some s => some s | none => p.currentBranch
    commits := d.commitsF.getD p.commits
    rootCommitId :=
      match d.rootCommitIdF with | some s => some s | none => p.rootCommitId
    currentCommitId :=
      match d.currentCommitIdF with
      | some s => some s
      | none => p.currentCommitId
    items := d.itemsF.getD p.items }

/-- A dump with every field absent. -/
def emptyDump : Dump :=
  ⟨none, none, none, none, none, none, none, none, none, none, none⟩

/-- The fresh aggregate that load populates: Project.fromFile constructs
the Project without authorId and title, so the identity fields keep their
EMPTY defaults and workingDir is the open directory. -/
def freshProject (wd : String) : Project := (createProject wd "" "" none 0).1

theorem dropUndefined_roundtrip (b : JsObj (Option String))
    (h : ∀ kv ∈ b, kv.2 ≠ none) :
    (dropUndefined b).map (fun kv => (kv.1, some kv.2)) = b := by
  induction b with
  | nil => rfl
  | cons kv rest ih =>
    rcases kv with ⟨k, val⟩
    cases hv : val with
    | none => exact absurd (by rw [hv]) (h (k, val) (by simp))
    | some v =>
      subst hv
      have hstep : dropUndefined ((k, some v) :: rest) =
          (k, v) :: dropUndefined rest := by
        simp [dropUndefined]
      rw [hstep, List.map_cons, ih (fun x hx => h x (by simp [hx]))]

/-- C9 (amended): for every Project whose branches contain no undefined
tips, save followed by load into a fresh Project yields an aggregate equal
to the original on all eleven persisted fields; fields absent from the
dump are ignored by load (an all-absent dump changes nothing), unknown
dump fields are discarded by the PROJECT_DUMP_KEYS filter, and workingDir
is never serialized (the loaded aggregate keeps the open directory).  A
branch recorded with an undefined tip, reachable via createBranch on an
empty graph, is dropped by serialization, which is why the unqualified
claim fails. -/
theorem C9_save_load_roundtrip (p : Project) (wd : String)
    (hbr : ∀ kv ∈ p.branches, kv.2 ≠ none) :
    (fromJSONd (freshProject wd) (serializeDump p)).id = p.id ∧
    (fromJSONd (freshProject wd) (serializeDump p)).authorId = p.authorId ∧
    (fromJSONd (freshProject wd) (serializeDump p)).title = p.title ∧
    (fromJSONd (freshProject wd) (serializeDump p)).description =
      p.description ∧
    (fromJSONd (freshProject wd) (serializeDump p)).branches = p.branches ∧
    (fromJSONd (freshProject wd) (serializeDump p)).defaultBranch =
      p.defaultBranch ∧
    (fromJSONd (freshProject wd) (serializeDump p)).currentBranch =
      p.currentBranch ∧
    (fromJSONd (freshProject wd) (serializeDump p)).commits = p.commits ∧
    (fromJSONd (freshProject wd) (serializeDump p)).rootCommitId =
      p.rootCommitId ∧
    (fromJSONd (freshProject wd) (serializeDump p)).currentCommitId =
      p.currentCommitId ∧
    (fromJSONd (freshProject wd) (serializeDump p)).items = p.items ∧
    (fromJSONd (freshProject wd) (serializeDump p)).workingDir =
      (freshProject wd).workingDir ∧
    (freshProject wd).workingDir = wd ∧
    (∀ q : Project, fromJSONd q emptyDump = q) := by
  refine ⟨rfl, rfl, rfl, ?_, ?_, ?_, ?_, rfl, ?_, ?_, rfl, rfl, rfl, ?_⟩
  · unfold fromJSONd serializeDump
    cases p.description <;> rfl
  · unfold fromJSONd serializeDump
    simp only
    exact dropUndefined_roundtrip p.branches hbr
  · unfold fromJSONd serializeDump
    cases p.defaultBranch <;> rfl
  · unfold fromJSONd serializeDump
    cases p.currentBranch <;> rfl
  · unfold fromJSONd serializeDump
    cases p.rootCommitId <;> rfl
  · unfold fromJSONd serializeDump
    cases p.currentCommitId <;> rfl
  · intro q
    rfl

/-- A reachable project whose branch "dev" has an undefined tip. -/
def wProj9 : Project := { wProj8base with branches := [("dev", none)] }

/-- C9 counterexample: the branch with the undefined tip is dropped by
save, so load yields an aggregate whose branches differ from the
original, refuting the unqualified round-trip claim. -/
theorem C9_save_load_roundtrip_counterexample :
    (fromJSONd (freshProject "wd") (serializeDump wProj9)).branches ≠
      wProj9.branches := by decide

theorem C9_save_load_roundtrip_witness :
    (fromJSONd (freshProject "wd2") (serializeDump wProj1)).branches =
      wProj1.branches ∧
    (fromJSONd (freshProject "wd2") (serializeDump wProj1)).commits =
      wProj1.commits ∧
    (fromJSONd (freshProject "wd2") (serializeDump wProj1)).workingDir =
      "wd2" := by
  have h := C9_save_load_roundtrip wProj1 "wd2" (by decide)
  exact ⟨h.2.2.2.2.1, h.2.2.2.2.2.2.2.1,
    h.2.2.2.2.2.2.2.2.2.2.2.1.trans h.2.2.2.2.2.2.2.2.2.2.2.2.1⟩
